import Mathlib

/-!
# jeuDechec: the command loop of `main.cpp`

A shallow embedding of `src/main.cpp` (`isFinished`, `parseAndValidate`, `tokenize`,
`computerPlay`, `evaluateCommand`) over an abstract `Game`, followed by the properties of
the command loop.

Conventions of the embedding.

* `std::string` is `String`.  The only characters the code inspects are the ASCII
  whitespace characters recognised by `operator>>` in the default "C" locale; every byte of
  a multi-byte UTF-8 sequence is above `0x7f`, hence never whitespace.
* `Move *` is `Option μ` (`NULL` is `none`); a move is identified with its value.
* A call of a function on a `Game &` is run from a state `s : σ` and yields a `Run`: the
  state afterwards, the ordered list of the calls made on the game and of the text written
  to `std::cout`, and how the call ended.
-/

namespace JeuDechec

/-! ## The game interface -/

/-- Modelled from the spec: the classes `Game` (`game.h`) and `Move` (`move.h`) are not part
of the available sources, `main.cpp` only calls them.  The interface lists the operations
that `main.cpp` uses and that return a value or change the game.  Following the spec,
`getAllLegalMoves` (`legalMoves()`, "deterministic given the current Board State") and
`computerSuggestion` (`suggest(strength) -> Move`) are queries of the state, `play` and
`undo` are the two mutating operations (`undo` also returns whether a move was undone), and
`toBasicNotation` is the notation string of a move.  The three display operations return
nothing and only write text; they appear as events of a run. -/
structure Game (σ μ : Type) where
  /-- `std::vector<Move *> Game::getAllLegalMoves()`, in generator order. -/
  getAllLegalMoves : σ → List μ
  /-- `std::string Move::toBasicNotation()`. -/
  toBasicNotation : μ → String
  /-- `Move *Game::computerSuggestion(int strength)`. -/
  computerSuggestion : σ → Int → Option μ
  /-- `void Game::play(Move *)`. -/
  play : σ → μ → σ
  /-- `bool Game::undo()`. -/
  undo : σ → Bool × σ

/-- One observable step of a run: a call of a `Game` method, with the state on which it is
called and its arguments, or one statement writing to `std::cout`, with the text written. -/
inductive Event (σ μ : Type) where
  | getAllLegalMoves (s : σ)
  | computerSuggestion (s : σ) (strength : Int)
  | play (s : σ) (m : μ)
  | undo (s : σ)
  | display (s : σ)
  | displayCaptured (s : σ)
  | displayValueHeuristic (s : σ)
  | print (text : String)
  deriving DecidableEq

/-- How a call ended: it returned, it ended the process through `exit(code)`, or an
`assert` failed. -/
inductive Outcome where
  | returned
  | exited (code : Int)
  | assertFailed
  deriving DecidableEq

/-- The result of a value-returning helper: the value and the calls it made on the game. -/
structure Query (σ μ α : Type) where
  value : α
  trace : List (Event σ μ)

/-- The result of running a `void` function on a game. -/
structure Run (σ μ : Type) where
  state : σ
  trace : List (Event σ μ)
  outcome : Outcome
  deriving DecidableEq

variable {σ μ : Type}

/-- The text written by `std::endl`. -/
def endl : String := "\n"

/-! ## `isFinished` and `parseAndValidate` -/

/-- `bool isFinished(Game &g)`: `g.getAllLegalMoves().size() == 0`. -/
def isFinished (G : Game σ μ) (s : σ) : Query σ μ Bool :=
  { value := (G.getAllLegalMoves s).length == 0
    trace := [Event.getAllLegalMoves s] }

/-- The `for (auto x : moves)` loop of `parseAndValidate`: the first move whose notation is
equal to `line`, `NULL` when the loop ends without a match. -/
def parseAndValidateLoop (G : Game σ μ) (line : String) : List μ → Option μ
  | [] => none
  | x :: moves =>
    let s := G.toBasicNotation x
    if line = s then some x else parseAndValidateLoop G line moves

/-- `Move *parseAndValidate(Game &g, const std::string &line)`. -/
def parseAndValidate (G : Game σ μ) (s : σ) (line : String) : Query σ μ (Option μ) :=
  let moves := G.getAllLegalMoves s
  { value := parseAndValidateLoop G line moves
    trace := [Event.getAllLegalMoves s] }

/-! ## `tokenize` -/

/-- The whitespace characters of the "C" locale, those skipped and stopped at by
`operator>>` on a `std::string`: space, `\t`, `\n`, `\v`, `\f`, `\r`. -/
def isspace (c : Char) : Bool :=
  c == ' ' || c == '\t' || c == '\n' || c == '\x0b' || c == '\x0c' || c == '\r'

/-- One evaluation of `f >> word` on the unread characters `f` of the stream: leading
whitespace is skipped, then characters are read up to the next whitespace or the end.  The
result is `none` when the extraction fails (nothing but whitespace was left), otherwise the
word read and the characters still unread. -/
def extractWord (f : List Char) : Option (List Char × List Char) :=
  match f.dropWhile isspace with
  | [] => none
  | c :: rest =>
    some ((c :: rest).takeWhile (fun x => !isspace x), (c :: rest).dropWhile (fun x => !isspace x))

/-- The loop `while (f >> word) tokens.push_back(word);`, with a bound on the number of
evaluations of the loop condition. -/
def tokenizeLoop : Nat → List Char → List String → List String
  | 0, _, tokens => tokens
  | fuel + 1, f, tokens =>
    match extractWord f with
    | none => tokens
    | some (word, f1) => tokenizeLoop fuel f1 (tokens ++ [String.mk word])

/-- `void tokenize(const std::string &s, std::vector<std::string> &tokens)`; the result is
the vector `tokens` after the call.  Every successful extraction reads at least one
character, so the condition is evaluated at most `s.length + 1` times. -/
def tokenize (s : String) (tokens : List String) : List String :=
  tokenizeLoop (s.length + 1) s.toList tokens

/-! ## `computerPlay` and `evaluateCommand` -/

/-- `void computerPlay(Game &g, int strength)`. -/
def computerPlay (G : Game σ μ) (s : σ) (strength : Int) : Run σ μ :=
  let fin := isFinished G s
  if fin.value then
    { state := s
      trace := fin.trace ++ [Event.print ("Nothing to play !" ++ endl)]
      outcome := Outcome.returned }
  else
    match G.computerSuggestion s strength with
    | none =>
      { state := s
        trace := fin.trace ++ [Event.computerSuggestion s strength]
        outcome := Outcome.assertFailed }
    | some m =>
      let s1 := G.play s m
      { state := s1
        trace := fin.trace ++
          [Event.computerSuggestion s strength,
           Event.play s m,
           Event.print ("Computer played " ++ G.toBasicNotation m ++ endl),
           Event.display s1]
        outcome := Outcome.returned }

/-- The nine lines written by the `help` command. -/
def helpText : List String :=
  ["*move*: play *move* (type '?' for list of possible moves)" ++ endl,
   "play s, p s, p: computer plays next move, s = strength" ++ endl,
   "display, d: display current state of the game" ++ endl,
   "display dead pieces, e: display all eated piece during the game" ++ endl,
   "display board score, o: display the current score on the board" ++ endl,
   "undo, u: cancel last move" ++ endl,
   "?: print all possible moves" ++ endl,
   "quit, q: quit game" ++ endl,
   "help, h: this message" ++ endl]

/-- The text written when the line is neither a command nor a legal move. -/
def notUnderstood : String :=
  "I didn't understand your move, try '?' for list of moves or 'help'" ++ endl

/-- `void evaluateCommand(Game &g, const std::string &line)`. -/
def evaluateCommand (G : Game σ μ) (s : σ) (line : String) : Run σ μ :=
  let commands := tokenize line []
  match commands with
  | [] => { state := s, trace := [], outcome := Outcome.returned }
  | command :: _ =>
    if command = "d" then
      { state := s, trace := [Event.display s], outcome := Outcome.returned }
    else if command = "?" then
      let moves := G.getAllLegalMoves s
      { state := s
        trace := [Event.getAllLegalMoves s] ++
          moves.map (fun x => Event.print (G.toBasicNotation x ++ " ")) ++
          [Event.print endl]
        outcome := Outcome.returned }
    else if command = "dead" ∨ command = "e" then
      { state := s, trace := [Event.displayCaptured s], outcome := Outcome.returned }
    else if command = "score" ∨ command = "o" then
      { state := s, trace := [Event.displayValueHeuristic s], outcome := Outcome.returned }
    else if command = "help" ∨ command = "h" then
      { state := s, trace := helpText.map Event.print, outcome := Outcome.returned }
    else if command = "quit" ∨ command = "q" then
      { state := s, trace := [Event.print ("bye bye" ++ endl)], outcome := Outcome.exited 0 }
    else if command = "undo" ∨ command = "u" then
      let b := G.undo s
      { state := b.2
        trace := [Event.undo s,
          Event.print (if b.1 then "undo last move" ++ endl else "no move to undo" ++ endl)]
        outcome := Outcome.returned }
    else if command = "play" ∨ command = "p" then
      computerPlay G s 1
    else
      let m := parseAndValidate G s line
      match m.value with
      | none =>
        { state := s, trace := m.trace ++ [Event.print notUnderstood], outcome := Outcome.returned }
      | some x =>
        let s1 := G.play s x
        { state := s1
          trace := m.trace ++
            [Event.play s x, Event.print (G.toBasicNotation x ++ endl), Event.display s1]
          outcome := Outcome.returned }

/-! ## Vocabulary of the statements -/

/-- The words that `evaluateCommand` compares the first token with. -/
def commandWords : List String :=
  ["d", "?", "dead", "e", "score", "o", "help", "h", "quit", "q", "undo", "u", "play", "p"]

/-- The first whitespace-delimited token of a line, if there is one. -/
def firstToken (line : String) : Option String := (tokenize line []).head?

/-- Whether an event is a call of `play`. -/
def Event.isPlay : Event σ μ → Bool
  | Event.play _ _ => true
  | _ => false

/-- Whether an event is a call of `undo`. -/
def Event.isUndo : Event σ μ → Bool
  | Event.undo _ => true
  | _ => false

/-- Whether an event is a call of `computerSuggestion`. -/
def Event.isComputerSuggestion : Event σ μ → Bool
  | Event.computerSuggestion _ _ => true
  | _ => false

/-- A string made of `n` spaces. -/
def spaces (n : Nat) : String := String.mk (List.replicate n ' ')

/-- A small game on which the functions are evaluated.  The state is the stack of the moves
played so far; three moves are legal until two moves have been played, then the game is
over.  The computer picks the first move at strength 1 and the second one above. -/
def sampleGame : Game (List Nat) Nat where
  getAllLegalMoves s := if s.length < 2 then [0, 1, 2] else []
  toBasicNotation m := if m = 0 then "a2a3" else if m = 1 then "e2e4" else "g1f3"
  computerSuggestion s strength :=
    if s.length < 2 then some (if strength ≤ 1 then 0 else 1) else none
  play s m := m :: s
  undo s :=
    match s with
    | [] => (false, [])
    | _ :: rest => (true, rest)

/-- The maximal runs of non-whitespace characters of a string, in order of occurrence, as
the words "maximal run" say it: cut the string at every whitespace character and keep the
pieces that are not empty.  This definition does not follow the code of `tokenize`; it is
what `tokenize` is compared with. -/
def maximalRuns (s : List Char) : List (List Char) :=
  (s.splitOnP isspace).filter (fun w => !w.isEmpty)

/-! ## Properties of `tokenize` -/

theorem maximalRuns_nil : maximalRuns [] = [] := by
  simp [maximalRuns, List.splitOnP_nil]

theorem maximalRuns_cons_space (c : Char) (s : List Char) (hc : isspace c = true) :
    maximalRuns (c :: s) = maximalRuns s := by
  simp [maximalRuns, List.splitOnP_cons, hc]

theorem maximalRuns_dropWhile (s : List Char) :
    maximalRuns (s.dropWhile isspace) = maximalRuns s := by
  induction s with
  | nil => rfl
  | cons c s ih =>
    by_cases hc : isspace c = true
    · rw [List.dropWhile_cons_of_pos hc, ih, maximalRuns_cons_space c s hc]
    · rw [List.dropWhile_cons_of_neg hc]

theorem maximalRuns_word (c : Char) (rest : List Char) (hc : isspace c = false) :
    maximalRuns (c :: rest) =
      (c :: rest).takeWhile (fun x => !isspace x) ::
        maximalRuns ((c :: rest).dropWhile (fun x => !isspace x)) := by
  have hsplit := List.takeWhile_append_dropWhile (fun x => !isspace x) (c :: rest)
  have hword : ∀ x ∈ (c :: rest).takeWhile (fun x => !isspace x), ¬ isspace x = true := by
    intro x hx
    have := List.mem_takeWhile_imp hx
    simpa using this
  have hne : (c :: rest).takeWhile (fun x => !isspace x) ≠ [] := by
    simp [List.takeWhile_cons, hc]
  cases hd : (c :: rest).dropWhile (fun x => !isspace x) with
  | nil =>
    rw [hd, List.append_nil] at hsplit
    rw [hsplit] at hword hne ⊢
    rw [maximalRuns_nil, maximalRuns, List.splitOnP_eq_single isspace _ hword]
    simp
  | cons sep tl =>
    have hsep : isspace sep = true := by
      have := List.head_dropWhile_not (fun x => !isspace x) (c :: rest) (by rw [hd]; simp)
      simpa [hd] using this
    rw [hd] at hsplit
    rw [maximalRuns_cons_space sep tl hsep]
    conv_lhs => rw [← hsplit]
    rw [maximalRuns, List.splitOnP_first isspace _ hword sep hsep, List.filter_cons]
    have : (!((c :: rest).takeWhile (fun x => !isspace x)).isEmpty) = true := by
      cases h : (c :: rest).takeWhile (fun x => !isspace x) with
      | nil => exact absurd h hne
      | cons _ _ => rfl
    rw [if_pos this, maximalRuns]

theorem tokenizeLoop_eq (fuel : Nat) (f : List Char) (tokens : List String)
    (hfuel : f.length < fuel) :
    tokenizeLoop fuel f tokens = tokens ++ (maximalRuns f).map String.mk := by
  induction fuel generalizing f tokens with
  | zero => omega
  | succ fuel ih =>
    rw [tokenizeLoop, extractWord]
    cases hd : f.dropWhile isspace with
    | nil =>
      rw [← maximalRuns_dropWhile, hd, maximalRuns_nil]
      simp
    | cons c rest =>
      have hc : isspace c = false := by
        have := List.head_dropWhile_not isspace f (by rw [hd]; simp)
        simpa [hd] using this
      have hlen : (c :: rest).length ≤ f.length := by
        rw [← hd]; exact (List.dropWhile_sublist isspace).length_le
      have hlt : ((c :: rest).dropWhile (fun x => !isspace x)).length < (c :: rest).length := by
        rw [List.dropWhile_cons_of_pos (by simp [hc])]
        exact Nat.lt_succ_of_le (List.dropWhile_sublist _).length_le
      show tokenizeLoop fuel _ _ = _
      rw [ih _ _ (by omega), ← maximalRuns_dropWhile f, hd, maximalRuns_word c rest hc]
      simp

theorem tokenize_eq (s : String) (tokens : List String) :
    tokenize s tokens = tokens ++ (maximalRuns s.toList).map String.mk :=
  tokenizeLoop_eq _ _ _ (Nat.lt_succ_self _)

theorem splitOnP_no_sep (s : List Char) :
    ∀ w ∈ s.splitOnP isspace, ∀ c ∈ w, isspace c = false := by
  induction s with
  | nil => simp [List.splitOnP_nil]
  | cons x xs ih =>
    rw [List.splitOnP_cons]
    by_cases hx : isspace x = true
    · rw [if_pos hx]
      intro w hw c hc
      rcases List.mem_cons.1 hw with h | h
      · subst h; simp at hc
      · exact ih w h c hc
    · rw [if_neg hx]
      cases hsp : xs.splitOnP isspace with
      | nil => simp [List.modifyHead]
      | cons hd tl =>
        rw [hsp] at ih
        intro w hw c hc
        simp only [List.modifyHead, List.mem_cons] at hw
        rcases hw with h | h
        · subst h
          rcases List.mem_cons.1 hc with h1 | h1
          · subst h1; simpa using hx
          · exact ih hd (List.mem_cons_self _ _) c h1
        · exact ih w (List.mem_cons_of_mem _ h) c hc

theorem flatten_splitOnP (s : List Char) :
    (s.splitOnP isspace).flatten = s.filter (fun c => !isspace c) := by
  induction s with
  | nil => simp [List.splitOnP_nil]
  | cons x xs ih =>
    rw [List.splitOnP_cons]
    by_cases hx : isspace x = true
    · rw [if_pos hx, List.flatten_cons, List.nil_append, ih, List.filter_cons_of_neg (by simp [hx])]
    · rw [if_neg hx, List.filter_cons_of_pos (by simpa using hx), ← ih]
      cases hsp : xs.splitOnP isspace with
      | nil => exact absurd hsp (List.splitOnP_ne_nil _ _)
      | cons hd tl => simp [List.modifyHead]

theorem mem_maximalRuns (s w : List Char) (hw : w ∈ maximalRuns s) :
    w ≠ [] ∧ ∀ c ∈ w, isspace c = false := by
  rw [maximalRuns, List.mem_filter] at hw
  refine ⟨?_, splitOnP_no_sep s w hw.1⟩
  intro h
  rw [h] at hw
  simp at hw

theorem flatten_maximalRuns (s : List Char) :
    (maximalRuns s).flatten = s.filter (fun c => !isspace c) := by
  rw [maximalRuns, List.flatten_filter_not_isEmpty, flatten_splitOnP]

theorem maximalRuns_eq_nil_iff (s : List Char) :
    maximalRuns s = [] ↔ ∀ c ∈ s, isspace c = true := by
  constructor
  · intro h
    have hf := flatten_maximalRuns s
    rw [h, List.flatten_nil] at hf
    have := List.filter_eq_nil_iff.1 hf.symm
    simpa using this
  · intro h
    have hf := flatten_maximalRuns s
    rw [List.filter_eq_nil_iff.2 (by simpa using h)] at hf
    cases hm : maximalRuns s with
    | nil => rfl
    | cons w ws =>
      have hw := (mem_maximalRuns s w (by rw [hm]; exact List.mem_cons_self _ _)).1
      rw [hm] at hf
      exact absurd (List.flatten_eq_nil_iff.1 hf w (List.mem_cons_self _ _)) hw

/-- C9.  For every string `s` and every initial vector `tokens`, `tokenize` keeps the elements
already in `tokens` and appends, in order of occurrence, exactly the maximal runs of
non-whitespace characters of `s`: every appended word is non-empty and free of whitespace,
the concatenation of the appended words is `s` with all whitespace removed, and nothing is
appended if and only if `s` is empty or consists of whitespace only. -/
theorem tokenize_appends_maximal_runs (s : String) (tokens : List String) :
    ∃ words : List String,
      tokenize s tokens = tokens ++ words ∧
      words = (maximalRuns s.toList).map String.mk ∧
      (∀ w ∈ words, w ≠ "" ∧ ∀ c ∈ w.toList, isspace c = false) ∧
      String.join words = String.mk (s.toList.filter (fun c => !isspace c)) ∧
      (words = [] ↔ ∀ c ∈ s.toList, isspace c = true) := by
  refine ⟨(maximalRuns s.toList).map String.mk, tokenize_eq s tokens, rfl, ?_, ?_, ?_⟩
  · intro w hw
    obtain ⟨l, hl, rfl⟩ := List.mem_map.1 hw
    obtain ⟨hne, hsp⟩ := mem_maximalRuns _ l hl
    refine ⟨?_, hsp⟩
    intro h
    exact hne (congrArg String.data h)
  · rw [String.join_eq, List.map_map]
    have : (String.data ∘ String.mk) = (id : List Char → List Char) := rfl
    rw [this, List.map_id, flatten_maximalRuns]
  · rw [List.map_eq_nil_iff]
    exact maximalRuns_eq_nil_iff _

/-! ## Properties of the command loop -/

/-- C5.  When the first token of the line is `undo` or `u`, `evaluateCommand` calls `undo()`
exactly once and neither `play` nor `computerSuggestion`; it writes "undo last move" if and
only if `undo()` returned true and "no move to undo" if and only if it returned false, and
it returns normally in both cases. -/
theorem evaluateCommand_undo (G : Game σ μ) (s : σ) (line : String)
    (hline : firstToken line = some "undo" ∨ firstToken line = some "u") :
    (evaluateCommand G s line).trace.filter Event.isUndo = [Event.undo s] ∧
    (evaluateCommand G s line).trace.filter Event.isPlay = [] ∧
    (evaluateCommand G s line).trace.filter Event.isComputerSuggestion = [] ∧
    (Event.print ("undo last move" ++ endl) ∈ (evaluateCommand G s line).trace ↔
      (G.undo s).1 = true) ∧
    (Event.print ("no move to undo" ++ endl) ∈ (evaluateCommand G s line).trace ↔
      (G.undo s).1 = false) ∧
    evaluateCommand G s line =
      { state := (G.undo s).2
        trace := [Event.undo s,
          Event.print (if (G.undo s).1 then "undo last move" ++ endl else "no move to undo" ++ endl)]
        outcome := Outcome.returned } := by
  have hrun : evaluateCommand G s line =
      { state := (G.undo s).2
        trace := [Event.undo s,
          Event.print (if (G.undo s).1 then "undo last move" ++ endl else "no move to undo" ++ endl)]
        outcome := Outcome.returned } := by
    unfold firstToken at hline
    unfold evaluateCommand
    cases htok : tokenize line [] with
    | nil => rw [htok] at hline; simp at hline
    | cons command rest =>
      rw [htok] at hline
      simp only [List.head?_cons, Option.some.injEq] at hline
      rcases hline with h | h <;> subst h <;> simp
  rw [hrun]
  have hne : ("undo last move" ++ endl) ≠ ("no move to undo" ++ endl) := by decide
  refine ⟨rfl, rfl, rfl, ?_, ?_, rfl⟩
  · cases hb : (G.undo s).1 <;> simp [hne]
  · cases hb : (G.undo s).1 <;> simp [hne, Ne.symm hne]

theorem evaluateCommand_undo_witness :
    firstToken " undo now" = some "undo" ∧
    evaluateCommand sampleGame [1, 0] " undo now" =
      { state := [0]
        trace := [Event.undo [1, 0], Event.print "undo last move\n"]
        outcome := Outcome.returned } :=
  ⟨by decide, (evaluateCommand_undo sampleGame [1, 0] " undo now" (Or.inl (by decide))).2.2.2.2.2⟩


theorem computerPlay_finished (G : Game σ μ) (s : σ) (strength : Int)
    (hfin : G.getAllLegalMoves s = []) :
    computerPlay G s strength =
      { state := s
        trace := [Event.getAllLegalMoves s, Event.print ("Nothing to play !" ++ endl)]
        outcome := Outcome.returned } := by
  simp [computerPlay, isFinished, hfin]

theorem computerPlay_trace_prefix (G : Game σ μ) (s : σ) (strength : Int) :
    ∃ rest, (computerPlay G s strength).trace = Event.getAllLegalMoves s :: rest ∧
      (G.getAllLegalMoves s = [] → rest.filter Event.isComputerSuggestion = []) ∧
      ∀ s1 k, Event.computerSuggestion s1 k ∈ rest → s1 = s := by
  unfold computerPlay
  by_cases hfin : G.getAllLegalMoves s = []
  · simp [isFinished, hfin, Event.isComputerSuggestion]
  · have hlen : ((G.getAllLegalMoves s).length == 0) = false := by
      simpa [List.length_eq_zero] using hfin
    simp only [isFinished, hlen]
    cases hsug : G.computerSuggestion s strength with
    | none => simp [hfin]
    | some m => simp [hfin]

/-- C1.  `computerPlay` calls `computerSuggestion` only after `getAllLegalMoves` has
returned a non-empty list on the same state; when the list is empty (`isFinished` is true)
it writes "Nothing to play !" and returns, calling neither `computerSuggestion` nor `play`,
and the game state is unchanged. -/
theorem computerPlay_guards_suggestion (G : Game σ μ) (s : σ) (strength : Int) :
    (∀ (pre post : List (Event σ μ)) (s1 : σ) (k : Int),
      (computerPlay G s strength).trace = pre ++ Event.computerSuggestion s1 k :: post →
        Event.getAllLegalMoves s1 ∈ pre ∧ G.getAllLegalMoves s1 ≠ []) ∧
    (G.getAllLegalMoves s = [] →
      (isFinished G s).value = true ∧
      (computerPlay G s strength).trace.filter Event.isComputerSuggestion = [] ∧
      (computerPlay G s strength).trace.filter Event.isPlay = [] ∧
      computerPlay G s strength =
        { state := s
          trace := [Event.getAllLegalMoves s, Event.print ("Nothing to play !" ++ endl)]
          outcome := Outcome.returned }) := by
  constructor
  · intro pre post s1 k htrace
    obtain ⟨rest, hrest, hnone, hsame⟩ := computerPlay_trace_prefix G s strength
    rw [hrest] at htrace
    have hmem : Event.computerSuggestion s1 k ∈ rest := by
      have : Event.computerSuggestion s1 k ∈ Event.getAllLegalMoves s :: rest := by
        rw [htrace]; simp
      simpa using this
    have hs1 := hsame s1 k hmem
    subst hs1
    constructor
    · rcases pre with _ | ⟨e, pre⟩
      · simp at htrace
      · simp at htrace
        rw [← htrace.1]; exact List.mem_cons_self _ _
    · intro hfin
      have := hnone hfin
      rw [List.filter_eq_nil_iff] at this
      exact this _ hmem rfl
  · intro hfin
    rw [computerPlay_finished G s strength hfin]
    simp [isFinished, hfin, Event.isComputerSuggestion, Event.isPlay]

theorem computerPlay_guards_suggestion_witness :
    sampleGame.getAllLegalMoves [2, 1] = [] ∧
    computerPlay sampleGame [2, 1] 4 =
      { state := [2, 1]
        trace := [Event.getAllLegalMoves [2, 1], Event.print "Nothing to play !\n"]
        outcome := Outcome.returned } ∧
    (computerPlay sampleGame [] 4).trace =
      [Event.getAllLegalMoves []] ++ Event.computerSuggestion [] 4 ::
        [Event.play [] 1, Event.print "Computer played e2e4\n", Event.display [1]] ∧
    sampleGame.getAllLegalMoves [] ≠ [] :=
  ⟨by decide, ((computerPlay_guards_suggestion sampleGame [2, 1] 4).2 (by decide)).2.2.2,
    by decide,
    ((computerPlay_guards_suggestion sampleGame [] 4).1 [Event.getAllLegalMoves []]
      [Event.play [] 1, Event.print "Computer played e2e4\n", Event.display [1]] [] 4
      (by decide)).2⟩

theorem computerPlay_not_finished (G : Game σ μ) (s : σ) (strength : Int) (m : μ)
    (hs : G.getAllLegalMoves s ≠ []) (hsug : G.computerSuggestion s strength = some m) :
    computerPlay G s strength =
      { state := G.play s m
        trace := [Event.getAllLegalMoves s, Event.computerSuggestion s strength, Event.play s m,
          Event.print ("Computer played " ++ G.toBasicNotation m ++ endl),
          Event.display (G.play s m)]
        outcome := Outcome.returned } := by
  have hlen : ((G.getAllLegalMoves s).length == 0) = false := by
    simpa [List.length_eq_zero] using hs
  unfold computerPlay
  simp only [isFinished, hlen, hsug]
  simp

theorem evaluateCommand_blank (G : Game σ μ) (s : σ) (line : String)
    (hline : firstToken line = none) :
    evaluateCommand G s line = { state := s, trace := [], outcome := Outcome.returned } := by
  unfold firstToken at hline
  unfold evaluateCommand
  cases htok : tokenize line [] with
  | nil => rfl
  | cons command rest => rw [htok] at hline; simp at hline

theorem evaluateCommand_play (G : Game σ μ) (s : σ) (line : String)
    (hline : firstToken line = some "play" ∨ firstToken line = some "p") :
    evaluateCommand G s line = computerPlay G s 1 := by
  unfold firstToken at hline
  unfold evaluateCommand
  cases htok : tokenize line [] with
  | nil => rw [htok] at hline; simp at hline
  | cons command rest =>
    rw [htok] at hline
    simp only [List.head?_cons, Option.some.injEq] at hline
    rcases hline with h | h <;> subst h <;> simp

theorem evaluateCommand_move (G : Game σ μ) (s : σ) (line c : String)
    (hline : firstToken line = some c) (hc : c ∉ commandWords) :
    evaluateCommand G s line =
      match parseAndValidateLoop G line (G.getAllLegalMoves s) with
      | none =>
        { state := s
          trace := [Event.getAllLegalMoves s, Event.print notUnderstood]
          outcome := Outcome.returned }
      | some x =>
        { state := G.play s x
          trace := [Event.getAllLegalMoves s, Event.play s x,
            Event.print (G.toBasicNotation x ++ endl), Event.display (G.play s x)]
          outcome := Outcome.returned } := by
  unfold firstToken at hline
  unfold evaluateCommand
  cases htok : tokenize line [] with
  | nil => rw [htok] at hline; simp at hline
  | cons command rest =>
    rw [htok] at hline
    simp only [List.head?_cons, Option.some.injEq] at hline
    subst hline
    simp only [commandWords, List.mem_cons, List.mem_singleton, List.not_mem_nil, or_false,
      not_or] at hc
    obtain ⟨h1, h2, h3, h4, h5, h6, h7, h8, h9, h10, h11, h12, h13, h14⟩ := hc
    simp only [h1, h2, h3, h4, h5, h6, h7, h8, h9, h10, h11, h12, h13, h14, or_self, if_false,
      parseAndValidate]
    cases parseAndValidateLoop G line (G.getAllLegalMoves s) <;> simp

theorem evaluateCommand_command (G : Game σ μ) (s : σ) (line c : String)
    (hline : firstToken line = some c) (hc : c ∈ commandWords) :
    evaluateCommand G s line = evaluateCommand G s c := by
  unfold firstToken at hline
  cases htok : tokenize line [] with
  | nil => rw [htok] at hline; simp at hline
  | cons command rest =>
    rw [htok] at hline
    simp only [List.head?_cons, Option.some.injEq] at hline
    subst hline
    simp only [commandWords, List.mem_cons, List.mem_singleton, List.not_mem_nil, or_false] at hc
    rcases hc with h | h | h | h | h | h | h | h | h | h | h | h | h | h <;> subst h
    · have : tokenize "d" [] = ["d"] := by decide
      simp [evaluateCommand, htok, this]
    · have : tokenize "?" [] = ["?"] := by decide
      simp [evaluateCommand, htok, this]
    · have : tokenize "dead" [] = ["dead"] := by decide
      simp [evaluateCommand, htok, this]
    · have : tokenize "e" [] = ["e"] := by decide
      simp [evaluateCommand, htok, this]
    · have : tokenize "score" [] = ["score"] := by decide
      simp [evaluateCommand, htok, this]
    · have : tokenize "o" [] = ["o"] := by decide
      simp [evaluateCommand, htok, this]
    · have : tokenize "help" [] = ["help"] := by decide
      simp [evaluateCommand, htok, this]
    · have : tokenize "h" [] = ["h"] := by decide
      simp [evaluateCommand, htok, this]
    · have : tokenize "quit" [] = ["quit"] := by decide
      simp [evaluateCommand, htok, this]
    · have : tokenize "q" [] = ["q"] := by decide
      simp [evaluateCommand, htok, this]
    · have : tokenize "undo" [] = ["undo"] := by decide
      simp [evaluateCommand, htok, this]
    · have : tokenize "u" [] = ["u"] := by decide
      simp [evaluateCommand, htok, this]
    · have : tokenize "play" [] = ["play"] := by decide
      simp [evaluateCommand, htok, this]
    · have : tokenize "p" [] = ["p"] := by decide
      simp [evaluateCommand, htok, this]

theorem parseAndValidateLoop_eq_none (G : Game σ μ) (line : String) (moves : List μ) :
    parseAndValidateLoop G line moves = none ↔ ∀ x ∈ moves, G.toBasicNotation x ≠ line := by
  induction moves with
  | nil => simp [parseAndValidateLoop]
  | cons x moves ih =>
    by_cases h : line = G.toBasicNotation x
    · simp [parseAndValidateLoop, h]
    · simp [parseAndValidateLoop, h, ih, Ne.symm h]

theorem parseAndValidateLoop_eq_some (G : Game σ μ) (line : String) (moves : List μ) (m : μ) :
    parseAndValidateLoop G line moves = some m ↔
      ∃ pre post, moves = pre ++ m :: post ∧ G.toBasicNotation m = line ∧
        ∀ x ∈ pre, G.toBasicNotation x ≠ line := by
  induction moves with
  | nil => simp [parseAndValidateLoop]
  | cons x moves ih =>
    by_cases h : line = G.toBasicNotation x
    · simp only [parseAndValidateLoop, h, if_true, Option.some.injEq]
      constructor
      · intro hx
        subst hx
        exact ⟨[], moves, rfl, rfl, by simp⟩
      · rintro ⟨pre, post, hsplit, -, hpre⟩
        rcases pre with _ | ⟨y, pre⟩
        · simp only [List.nil_append, List.cons.injEq] at hsplit
          exact hsplit.1
        · simp only [List.cons_append, List.cons.injEq] at hsplit
          exact absurd rfl (hsplit.1 ▸ hpre y (List.mem_cons_self _ _))
    · simp only [parseAndValidateLoop, h, if_false, ih]
      constructor
      · rintro ⟨pre, post, hsplit, hm, hpre⟩
        refine ⟨x :: pre, post, by rw [hsplit]; rfl, hm, ?_⟩
        intro y hy
        rcases List.mem_cons.1 hy with hy | hy
        · subst hy; exact Ne.symm h
        · exact hpre y hy
      · rintro ⟨pre, post, hsplit, hm, hpre⟩
        rcases pre with _ | ⟨y, pre⟩
        · simp only [List.nil_append, List.cons.injEq] at hsplit
          exact absurd (hsplit.1 ▸ hm.symm) h
        · simp only [List.cons_append, List.cons.injEq] at hsplit
          exact ⟨pre, post, hsplit.2, hm, fun z hz => hpre z (List.mem_cons_of_mem _ hz)⟩

theorem parseAndValidateLoop_of_mem (G : Game σ μ) (moves : List μ) (m : μ) (hm : m ∈ moves) :
    ∃ m1 pre post, parseAndValidateLoop G (G.toBasicNotation m) moves = some m1 ∧
      moves = pre ++ m1 :: post ∧
      G.toBasicNotation m1 = G.toBasicNotation m ∧
      ∀ x ∈ pre, G.toBasicNotation x ≠ G.toBasicNotation m := by
  cases hparse : parseAndValidateLoop G (G.toBasicNotation m) moves with
  | none =>
    exact absurd rfl ((parseAndValidateLoop_eq_none G _ _).1 hparse m hm)
  | some m1 =>
    obtain ⟨pre, post, hsplit, hnot, hpre⟩ := (parseAndValidateLoop_eq_some G _ _ m1).1 hparse
    exact ⟨m1, pre, post, rfl, hsplit, hnot, hpre⟩

/-- C2.  When the first token of the line is not a command word, `evaluateCommand` calls
`play` at most once; when it does, the call is on the state it was given, with the value
returned by `parseAndValidate`: a member of `getAllLegalMoves()` of that state whose basic
notation is the line, and the first such member in generator order. -/
theorem evaluateCommand_plays_parsed_move (G : Game σ μ) (s : σ) (line : String)
    (hline : ∀ c, firstToken line = some c → c ∉ commandWords) :
    (evaluateCommand G s line).trace.filter Event.isPlay = [] ∨
    ∃ m, (evaluateCommand G s line).trace.filter Event.isPlay = [Event.play s m] ∧
      (parseAndValidate G s line).value = some m ∧
      m ∈ G.getAllLegalMoves s ∧
      G.toBasicNotation m = line ∧
      ∃ pre post, G.getAllLegalMoves s = pre ++ m :: post ∧
        ∀ x ∈ pre, G.toBasicNotation x ≠ line := by
  cases htok : firstToken line with
  | none => left; rw [evaluateCommand_blank G s line htok]; rfl
  | some c =>
    rw [evaluateCommand_move G s line c htok (hline c htok)]
    cases hparse : parseAndValidateLoop G line (G.getAllLegalMoves s) with
    | none => left; rfl
    | some m =>
      right
      obtain ⟨pre, post, hsplit, hm, hpre⟩ := (parseAndValidateLoop_eq_some G line _ m).1 hparse
      refine ⟨m, rfl, hparse, ?_, hm, pre, post, hsplit, hpre⟩
      rw [hsplit]; simp

theorem evaluateCommand_plays_parsed_move_witness :
    (∀ c, firstToken "e2e4" = some c → c ∉ commandWords) ∧
    ((evaluateCommand sampleGame [] "e2e4").trace.filter Event.isPlay = [] ∨
    ∃ m, (evaluateCommand sampleGame [] "e2e4").trace.filter Event.isPlay = [Event.play [] m] ∧
      (parseAndValidate sampleGame [] "e2e4").value = some m ∧
      m ∈ sampleGame.getAllLegalMoves [] ∧
      sampleGame.toBasicNotation m = "e2e4" ∧
      ∃ pre post, sampleGame.getAllLegalMoves [] = pre ++ m :: post ∧
        ∀ x ∈ pre, sampleGame.toBasicNotation x ≠ "e2e4") :=
  ⟨by decide, evaluateCommand_plays_parsed_move sampleGame [] "e2e4" (by decide)⟩

theorem evaluateCommand_readonly (G : Game σ μ) (s : σ) (c : String)
    (hc : c ∈ ["d", "?", "dead", "e", "score", "o", "help", "h", "quit", "q"]) :
    (∀ e ∈ (evaluateCommand G s c).trace,
      e.isPlay = false ∧ e.isUndo = false ∧ e.isComputerSuggestion = false) ∧
    (evaluateCommand G s c).state = s := by
  simp only [List.mem_cons, List.mem_singleton, List.not_mem_nil, or_false] at hc
  rcases hc with h | h | h | h | h | h | h | h | h | h <;> subst h
  · have : tokenize "d" [] = ["d"] := by decide
    simp [evaluateCommand, this, Event.isPlay, Event.isUndo, Event.isComputerSuggestion]
  · have : tokenize "?" [] = ["?"] := by decide
    simp only [evaluateCommand, this]
    refine ⟨?_, rfl⟩
    intro e he
    simp only [if_neg (show ¬ ("?" = "d") by decide), if_true, List.mem_append, List.mem_cons,
      List.mem_map, List.not_mem_nil, or_false] at he
    rcases he with (h | ⟨x, -, h⟩) | h <;> subst h <;> exact ⟨rfl, rfl, rfl⟩
  · have : tokenize "dead" [] = ["dead"] := by decide
    simp [evaluateCommand, this, Event.isPlay, Event.isUndo, Event.isComputerSuggestion]
  · have : tokenize "e" [] = ["e"] := by decide
    simp [evaluateCommand, this, Event.isPlay, Event.isUndo, Event.isComputerSuggestion]
  · have : tokenize "score" [] = ["score"] := by decide
    simp [evaluateCommand, this, Event.isPlay, Event.isUndo, Event.isComputerSuggestion]
  · have : tokenize "o" [] = ["o"] := by decide
    simp [evaluateCommand, this, Event.isPlay, Event.isUndo, Event.isComputerSuggestion]
  · have : tokenize "help" [] = ["help"] := by decide
    simp [evaluateCommand, this, helpText, Event.isPlay, Event.isUndo,
      Event.isComputerSuggestion]
  · have : tokenize "h" [] = ["h"] := by decide
    simp [evaluateCommand, this, helpText, Event.isPlay, Event.isUndo,
      Event.isComputerSuggestion]
  · have : tokenize "quit" [] = ["quit"] := by decide
    simp [evaluateCommand, this, Event.isPlay, Event.isUndo, Event.isComputerSuggestion]
  · have : tokenize "q" [] = ["q"] := by decide
    simp [evaluateCommand, this, Event.isPlay, Event.isUndo, Event.isComputerSuggestion]

theorem evaluateCommand_quiet (G : Game σ μ) (s : σ) (line : String)
    (hcmd : ¬ (firstToken line = some "undo" ∨ firstToken line = some "u" ∨
      firstToken line = some "play" ∨ firstToken line = some "p"))
    (hmove : ¬ ∃ m ∈ G.getAllLegalMoves s, G.toBasicNotation m = line) :
    (∀ e ∈ (evaluateCommand G s line).trace,
      e.isPlay = false ∧ e.isUndo = false ∧ e.isComputerSuggestion = false) ∧
    (evaluateCommand G s line).state = s ∧
    (∀ c, firstToken line = some c → c ∉ commandWords →
      (parseAndValidate G s line).value = none ∧
      evaluateCommand G s line =
        { state := s
          trace := [Event.getAllLegalMoves s, Event.print notUnderstood]
          outcome := Outcome.returned }) := by
  have hparse : parseAndValidateLoop G line (G.getAllLegalMoves s) = none := by
    rw [parseAndValidateLoop_eq_none]
    intro x hx hnot
    exact hmove ⟨x, hx, hnot⟩
  have hmoveRun : ∀ c, firstToken line = some c → c ∉ commandWords →
      evaluateCommand G s line =
        { state := s
          trace := [Event.getAllLegalMoves s, Event.print notUnderstood]
          outcome := Outcome.returned } := by
    intro c htok hc
    rw [evaluateCommand_move G s line c htok hc, hparse]
  refine ⟨?_, ?_, fun c htok hc => ⟨hparse, hmoveRun c htok hc⟩⟩
  · cases htok : firstToken line with
    | none => rw [evaluateCommand_blank G s line htok]; simp
    | some c =>
      by_cases hc : c ∈ commandWords
      · rw [evaluateCommand_command G s line c htok hc]
        refine (evaluateCommand_readonly G s c ?_).1
        rw [htok] at hcmd
        simp only [commandWords, List.mem_cons, List.mem_singleton, List.not_mem_nil,
          or_false] at hc
        simp only [Option.some.injEq, not_or] at hcmd
        simp only [List.mem_cons, List.mem_singleton, List.not_mem_nil, or_false]
        tauto
      · rw [hmoveRun c htok hc]
        simp [Event.isPlay, Event.isUndo, Event.isComputerSuggestion]
  · cases htok : firstToken line with
    | none => rw [evaluateCommand_blank G s line htok]
    | some c =>
      by_cases hc : c ∈ commandWords
      · rw [evaluateCommand_command G s line c htok hc]
        refine (evaluateCommand_readonly G s c ?_).2
        rw [htok] at hcmd
        simp only [commandWords, List.mem_cons, List.mem_singleton, List.not_mem_nil,
          or_false] at hc
        simp only [Option.some.injEq, not_or] at hcmd
        simp only [List.mem_cons, List.mem_singleton, List.not_mem_nil, or_false]
        tauto
      · rw [hmoveRun c htok hc]

/-- C3.  `evaluateCommand` calls a mutating operation of the game (`play` or `undo`) only
if the first token is `undo`, `u`, `play` or `p`, or the whole line is the basic notation of
a move of `getAllLegalMoves()`.  In every other case neither `play`, `undo` nor
`computerSuggestion` is called and the state is unchanged; when moreover the line starts
with a token that is not a command word, `parseAndValidate` returns `NULL` and the message
"I didn't understand your move..." is written. -/
theorem evaluateCommand_mutates_only_on_request (G : Game σ μ) (s : σ) (line : String) :
    ((∃ e ∈ (evaluateCommand G s line).trace, e.isPlay = true ∨ e.isUndo = true) →
      (firstToken line = some "undo" ∨ firstToken line = some "u" ∨
        firstToken line = some "play" ∨ firstToken line = some "p") ∨
      ∃ m ∈ G.getAllLegalMoves s, G.toBasicNotation m = line) ∧
    (¬ (firstToken line = some "undo" ∨ firstToken line = some "u" ∨
        firstToken line = some "play" ∨ firstToken line = some "p") →
      (¬ ∃ m ∈ G.getAllLegalMoves s, G.toBasicNotation m = line) →
      (∀ e ∈ (evaluateCommand G s line).trace,
        e.isPlay = false ∧ e.isUndo = false ∧ e.isComputerSuggestion = false) ∧
      (evaluateCommand G s line).state = s ∧
      (∀ c, firstToken line = some c → c ∉ commandWords →
        (parseAndValidate G s line).value = none ∧
        evaluateCommand G s line =
          { state := s
            trace := [Event.getAllLegalMoves s, Event.print notUnderstood]
            outcome := Outcome.returned })) := by
  refine ⟨?_, evaluateCommand_quiet G s line⟩
  rintro ⟨e, he, hmut⟩
  by_contra hnot
  rw [not_or] at hnot
  have hq := (evaluateCommand_quiet G s line hnot.1 hnot.2).1 e he
  rcases hmut with h | h
  · rw [hq.1] at h; exact Bool.false_ne_true h
  · rw [hq.2.1] at h; exact Bool.false_ne_true h

theorem evaluateCommand_mutates_only_on_request_witness :
    (¬ (firstToken "e2e5 " = some "undo" ∨ firstToken "e2e5 " = some "u" ∨
        firstToken "e2e5 " = some "play" ∨ firstToken "e2e5 " = some "p")) ∧
    (¬ ∃ m ∈ sampleGame.getAllLegalMoves [], sampleGame.toBasicNotation m = "e2e5 ") ∧
    (evaluateCommand sampleGame [] "e2e5 ").state = [] ∧
    (firstToken "e2e5 " = some "e2e5" → "e2e5" ∉ commandWords →
      (parseAndValidate sampleGame [] "e2e5 ").value = none ∧
      evaluateCommand sampleGame [] "e2e5 " =
        { state := []
          trace := [Event.getAllLegalMoves [], Event.print notUnderstood]
          outcome := Outcome.returned }) :=
  ⟨by decide, by decide,
    ((evaluateCommand_mutates_only_on_request sampleGame [] "e2e5 ").2
      (by decide) (by decide)).2.1,
    ((evaluateCommand_mutates_only_on_request sampleGame [] "e2e5 ").2
      (by decide) (by decide)).2.2 "e2e5"⟩

/-- C4.  Notation round trip.  Under the notation contract of the engine, that within one
state the basic notation determines the move (two moves of `getAllLegalMoves()` with the
same notation are the same move), parsing the notation of a move `m` of
`getAllLegalMoves()` gives back `m`: the result is not `NULL` and is no other move of the
list. -/
theorem parseAndValidate_own_notation (G : Game σ μ) (s : σ) (m : μ)
    (hm : m ∈ G.getAllLegalMoves s)
    (hinj : ∀ x ∈ G.getAllLegalMoves s, ∀ y ∈ G.getAllLegalMoves s,
      G.toBasicNotation x = G.toBasicNotation y → x = y) :
    (parseAndValidate G s (G.toBasicNotation m)).value = some m ∧
    (parseAndValidate G s (G.toBasicNotation m)).value ≠ none ∧
    ∀ x ∈ G.getAllLegalMoves s, x ≠ m →
      (parseAndValidate G s (G.toBasicNotation m)).value ≠ some x := by
  obtain ⟨m1, pre, post, hparse, hsplit, hnot, -⟩ :=
    parseAndValidateLoop_of_mem G (G.getAllLegalMoves s) m hm
  have hm1 : m1 ∈ G.getAllLegalMoves s := by rw [hsplit]; simp
  have heq : m1 = m := hinj m1 hm1 m hm hnot
  subst heq
  have hval : (parseAndValidate G s (G.toBasicNotation m1)).value = some m1 := hparse
  refine ⟨hval, ?_, ?_⟩
  · rw [hval]; exact Option.some_ne_none _
  · intro x _ hx h
    rw [hval] at h
    exact hx (Option.some.inj h).symm

theorem parseAndValidate_own_notation_witness :
    (2 : Nat) ∈ sampleGame.getAllLegalMoves [0] ∧
    (∀ x ∈ sampleGame.getAllLegalMoves [0], ∀ y ∈ sampleGame.getAllLegalMoves [0],
      sampleGame.toBasicNotation x = sampleGame.toBasicNotation y → x = y) ∧
    sampleGame.toBasicNotation 2 = "g1f3" ∧
    (parseAndValidate sampleGame [0] "g1f3").value = some 2 :=
  ⟨by decide, by decide, by decide,
    And.left <| parseAndValidate_own_notation sampleGame [0] 2 (by decide) (by decide)⟩

/-- C6, evaluated.  On the line "play 3" in the initial state of `sampleGame`, the computer
is asked for a move with strength 1, not 3, and the move played is the one suggested at
strength 1, which differs from the one suggested at strength 3. -/
theorem evaluateCommand_play_ignores_strength :
    evaluateCommand sampleGame [] "play 3" =
      { state := [0]
        trace := [Event.getAllLegalMoves [], Event.computerSuggestion [] 1, Event.play [] 0,
          Event.print "Computer played a2a3\n", Event.display [0]]
        outcome := Outcome.returned } ∧
    Event.computerSuggestion [] 3 ∉ (evaluateCommand sampleGame [] "play 3").trace ∧
    sampleGame.computerSuggestion [] 3 = some 1 ∧
    evaluateCommand sampleGame [] "p 3" = evaluateCommand sampleGame [] "play 3" := by
  decide

/-- C7, evaluated.  On the line "d" `evaluateCommand` calls `display()` and nothing else.  On
the line "display" it starts by calling `getAllLegalMoves()` to look for a move with that
notation, so the two runs differ in every game; in the initial state of `sampleGame` the
line "display" is answered by "I didn't understand your move..." and `display()` is not
called. -/
theorem evaluateCommand_display_word (G : Game σ μ) (s : σ) :
    evaluateCommand G s "d" =
      { state := s, trace := [Event.display s], outcome := Outcome.returned } ∧
    (evaluateCommand G s "display").trace.head? = some (Event.getAllLegalMoves s) ∧
    evaluateCommand G s "display" ≠ evaluateCommand G s "d" ∧
    evaluateCommand sampleGame [] "display" =
      { state := []
        trace := [Event.getAllLegalMoves [], Event.print notUnderstood]
        outcome := Outcome.returned } := by
  have hd : tokenize "d" [] = ["d"] := by decide
  have hrun : evaluateCommand G s "d" =
      { state := s, trace := [Event.display s], outcome := Outcome.returned } := by
    simp [evaluateCommand, hd]
  have hhead : (evaluateCommand G s "display").trace.head? = some (Event.getAllLegalMoves s) := by
    rw [evaluateCommand_move G s "display" "display" (by decide) (by decide)]
    cases parseAndValidateLoop G "display" (G.getAllLegalMoves s) <;> rfl
  refine ⟨hrun, hhead, ?_, by decide⟩
  intro heq
  rw [heq, hrun] at hhead
  simp at hhead

/-- C8.  Assume the engine contract: `computerSuggestion` returns a member of
`getAllLegalMoves()` whenever that list is not empty.  Then in every state that is not
terminal the assertion `m != NULL` of `computerPlay` holds, `computerPlay` calls
`computerSuggestion` exactly once and `play` exactly once, with the move that
`computerSuggestion` returned, a legal move of the state on which `play` is called; and for
a line whose first token is `play` or `p`, `evaluateCommand` runs `computerPlay` with
strength 1. -/
theorem computerPlay_assertion_holds (G : Game σ μ) (s : σ) (strength : Int)
    (hcontract : ∀ s1 k, G.getAllLegalMoves s1 ≠ [] →
      ∃ m ∈ G.getAllLegalMoves s1, G.computerSuggestion s1 k = some m)
    (hs : G.getAllLegalMoves s ≠ []) :
    (∃ m, G.computerSuggestion s strength = some m ∧
      m ∈ G.getAllLegalMoves s ∧
      (computerPlay G s strength).outcome = Outcome.returned ∧
      (computerPlay G s strength).trace.filter Event.isComputerSuggestion =
        [Event.computerSuggestion s strength] ∧
      (computerPlay G s strength).trace.filter Event.isPlay = [Event.play s m] ∧
      computerPlay G s strength =
        { state := G.play s m
          trace := [Event.getAllLegalMoves s, Event.computerSuggestion s strength,
            Event.play s m, Event.print ("Computer played " ++ G.toBasicNotation m ++ endl),
            Event.display (G.play s m)]
          outcome := Outcome.returned }) ∧
    ∀ line, firstToken line = some "play" ∨ firstToken line = some "p" →
      evaluateCommand G s line = computerPlay G s 1 ∧
      (evaluateCommand G s line).trace.filter Event.isComputerSuggestion =
        [Event.computerSuggestion s 1] := by
  have hrun : ∀ k, ∃ m, G.computerSuggestion s k = some m ∧
      m ∈ G.getAllLegalMoves s ∧
      computerPlay G s k =
        { state := G.play s m
          trace := [Event.getAllLegalMoves s, Event.computerSuggestion s k,
            Event.play s m, Event.print ("Computer played " ++ G.toBasicNotation m ++ endl),
            Event.display (G.play s m)]
          outcome := Outcome.returned } := by
    intro k
    obtain ⟨m, hm, hsug⟩ := hcontract s k hs
    exact ⟨m, hsug, hm, computerPlay_not_finished G s k m hs hsug⟩
  constructor
  · obtain ⟨m, hsug, hm, hplay⟩ := hrun strength
    refine ⟨m, hsug, hm, ?_, ?_, ?_, hplay⟩ <;> rw [hplay] <;> rfl
  · intro line hline
    obtain ⟨m, -, -, hplay⟩ := hrun 1
    rw [evaluateCommand_play G s line hline]
    refine ⟨rfl, ?_⟩
    rw [hplay]; rfl

theorem sampleGame_contract (s1 : List Nat) (k : Int)
    (h : sampleGame.getAllLegalMoves s1 ≠ []) :
    ∃ m ∈ sampleGame.getAllLegalMoves s1, sampleGame.computerSuggestion s1 k = some m := by
  by_cases hlen : s1.length < 2
  · by_cases hk : k ≤ 1
    · exact ⟨0, by simp [sampleGame, hlen], by simp [sampleGame, hlen, hk]⟩
    · exact ⟨1, by simp [sampleGame, hlen], by simp [sampleGame, hlen, hk]⟩
  · exact absurd (by simp [sampleGame, hlen]) h

theorem computerPlay_assertion_holds_witness :
    sampleGame.getAllLegalMoves [2] ≠ [] ∧
    computerPlay sampleGame [2] 3 =
      { state := [1, 2]
        trace := [Event.getAllLegalMoves [2], Event.computerSuggestion [2] 3, Event.play [2] 1,
          Event.print "Computer played e2e4\n", Event.display [1, 2]]
        outcome := Outcome.returned } ∧
    (evaluateCommand sampleGame [2] "p").trace.filter Event.isComputerSuggestion =
      [Event.computerSuggestion [2] 1] :=
  ⟨by decide, by decide,
    ((computerPlay_assertion_holds sampleGame [2] 3 sampleGame_contract (by decide)).2 "p"
      (Or.inr (by decide))).2⟩

theorem maximalRuns_padded (pre w post : List Char)
    (hpre : ∀ c ∈ pre, isspace c = true) (hne : w ≠ [])
    (hw : ∀ c ∈ w, isspace c = false) (hpost : ∀ c ∈ post, isspace c = true) :
    maximalRuns (pre ++ w ++ post) = [w] := by
  induction pre with
  | nil =>
    have hw1 : ∀ c ∈ w, ¬ isspace c = true := fun c hc => by simp [hw c hc]
    have hkeep : (!w.isEmpty) = true := by
      cases w with
      | nil => exact absurd rfl hne
      | cons _ _ => rfl
    cases post with
    | nil =>
      rw [List.nil_append, List.append_nil, maximalRuns, List.splitOnP_eq_single isspace _ hw1,
        List.filter_cons, if_pos hkeep, List.filter_nil]
    | cons sep tl =>
      have htl : maximalRuns tl = [] :=
        (maximalRuns_eq_nil_iff tl).2 (fun c hc => hpost c (List.mem_cons_of_mem _ hc))
      rw [maximalRuns] at htl
      rw [List.nil_append, maximalRuns,
        List.splitOnP_first isspace _ hw1 sep (hpost sep (List.mem_cons_self _ _)),
        List.filter_cons, if_pos hkeep, htl]
  | cons c pre ih =>
    rw [List.cons_append, List.cons_append,
      maximalRuns_cons_space c _ (hpre c (List.mem_cons_self _ _))]
    exact ih (fun x hx => hpre x (List.mem_cons_of_mem _ hx))

theorem firstToken_padded (w : String) (a b : Nat) (hne : w ≠ "")
    (hw : ∀ c ∈ w.toList, isspace c = false) :
    firstToken (spaces a ++ w ++ spaces b) = some w := by
  have hdata : (spaces a ++ w ++ spaces b).toList =
      List.replicate a ' ' ++ w.toList ++ List.replicate b ' ' := by
    simp [spaces, String.toList]
  have hsp : ∀ n, ∀ c ∈ List.replicate n ' ', isspace c = true := by
    intro n c hc
    rw [(List.mem_replicate.1 hc).2]; rfl
  have hne1 : w.toList ≠ [] := by
    intro h
    apply hne
    cases w
    simp only [String.toList] at h
    rw [h]
  rw [firstToken, tokenize_eq, hdata, maximalRuns_padded _ _ _ (hsp a) hne1 hw (hsp b)]
  rfl

/-- C10.  Moves are matched against the raw line, commands against the first token.  For a
legal move `m` whose notation is non-empty, free of whitespace and not a command word, and a
line made of that notation with `a` leading and `b` trailing spaces, at least one in all,
such that no legal move has the padded line as its notation: the first token of the line is
the notation of `m`, yet `evaluateCommand` does not call `play`, it answers "I didn't
understand your move..." and leaves the state unchanged, whereas the notation alone makes it
call `play`.  For a command, padding and further tokens are ignored: a line whose first
token is a command word behaves as that word alone, so " d " and "d xyz" behave as "d". -/
theorem evaluateCommand_padded_move (G : Game σ μ) (s : σ) (m : μ) (a b : Nat)
    (hm : m ∈ G.getAllLegalMoves s) (hne : G.toBasicNotation m ≠ "")
    (hw : ∀ c ∈ (G.toBasicNotation m).toList, isspace c = false)
    (hcmd : G.toBasicNotation m ∉ commandWords) (_hpad : 0 < a + b)
    (hnone : ∀ x ∈ G.getAllLegalMoves s,
      G.toBasicNotation x ≠ spaces a ++ G.toBasicNotation m ++ spaces b) :
    firstToken (spaces a ++ G.toBasicNotation m ++ spaces b) = some (G.toBasicNotation m) ∧
    evaluateCommand G s (spaces a ++ G.toBasicNotation m ++ spaces b) =
      { state := s
        trace := [Event.getAllLegalMoves s, Event.print notUnderstood]
        outcome := Outcome.returned } ∧
    (evaluateCommand G s (spaces a ++ G.toBasicNotation m ++ spaces b)).trace.filter
      Event.isPlay = [] ∧
    (∃ m1, G.toBasicNotation m1 = G.toBasicNotation m ∧
      (evaluateCommand G s (G.toBasicNotation m)).trace.filter Event.isPlay =
        [Event.play s m1]) ∧
    (∀ line c, firstToken line = some c → c ∈ commandWords →
      evaluateCommand G s line = evaluateCommand G s c) ∧
    evaluateCommand G s " d " = evaluateCommand G s "d" ∧
    evaluateCommand G s "d xyz" = evaluateCommand G s "d" := by
  have htok := firstToken_padded (G.toBasicNotation m) a b hne hw
  have hrun : evaluateCommand G s (spaces a ++ G.toBasicNotation m ++ spaces b) =
      { state := s
        trace := [Event.getAllLegalMoves s, Event.print notUnderstood]
        outcome := Outcome.returned } := by
    rw [evaluateCommand_move G s _ _ htok hcmd, (parseAndValidateLoop_eq_none G _ _).2 hnone]
  have htok0 : firstToken (G.toBasicNotation m) = some (G.toBasicNotation m) := by
    have h0 := firstToken_padded (G.toBasicNotation m) 0 0 hne hw
    have hpad0 : spaces 0 ++ G.toBasicNotation m ++ spaces 0 = G.toBasicNotation m := by
      simp [spaces]
    rwa [hpad0] at h0
  refine ⟨htok, hrun, by rw [hrun]; rfl, ?_,
    fun line c hline hc => evaluateCommand_command G s line c hline hc,
    evaluateCommand_command G s " d " "d" (by decide) (by decide),
    evaluateCommand_command G s "d xyz" "d" (by decide) (by decide)⟩
  obtain ⟨m1, -, -, hparse, -, hnot, -⟩ :=
    parseAndValidateLoop_of_mem G (G.getAllLegalMoves s) m hm
  refine ⟨m1, hnot, ?_⟩
  rw [evaluateCommand_move G s _ _ htok0 hcmd, hparse]
  rfl

theorem evaluateCommand_padded_move_witness :
    (1 : Nat) ∈ sampleGame.getAllLegalMoves [] ∧
    sampleGame.toBasicNotation 1 = "e2e4" ∧
    spaces 1 ++ sampleGame.toBasicNotation 1 ++ spaces 2 = " e2e4  " ∧
    evaluateCommand sampleGame [] " e2e4  " =
      { state := []
        trace := [Event.getAllLegalMoves [], Event.print notUnderstood]
        outcome := Outcome.returned } :=
  ⟨by decide, by decide, by decide,
    (evaluateCommand_padded_move sampleGame [] 1 1 2 (by decide) (by decide) (by decide)
      (by decide) (by decide) (by decide)).2.1⟩

end JeuDechec
